import Mathlib

/-!
Verification of the document indexing and hybrid retrieval core of the
research_hub backend (backend/utils/vector_store.py and the hybrid-search
helpers of backend/routers/papers.py), shallowly embedded in Lean.

Text is modelled as `List Char`, Python floats as `ℚ`, the ChromaDB
collection as an association list from chunk identifier to stored record,
and a Python exception escaping a function as an `Option`-valued result
(`none` = the call raised).  Backend failures (the vector store may throw
on get / delete / upsert / query / count) are injected through a
`FailSpec` of flags, and the approximate-nearest-neighbour answer of the
backend — which depends on an external embedding model and is out of
scope — is an oracle parameter.
-/

/-! ### Python string primitives used by the chunker -/

/-- ASCII whitespace, as recognised by Python's `str.strip()` on the
ASCII texts this development evaluates. -/
def pyIsSpace (c : Char) : Bool :=
  c = ' ' || c = '\t' || c = '\n' || c = '\r' || c = '\x0b' || c = '\x0c'

/-- Python `str.strip()`: drop whitespace from both ends. -/
def pyStrip (l : List Char) : List Char :=
  ((l.dropWhile pyIsSpace).reverse.dropWhile pyIsSpace).reverse

/-- Python slicing `text[a:b]` for `0 ≤ a ≤ b`. -/
def pySlice (l : List Char) (a b : Nat) : List Char :=
  (l.take b).drop a

/-- Whether `sub` occurs in `l` starting at index `i`. -/
def matchesAt (l sub : List Char) (i : Nat) : Bool :=
  (l.drop i).take sub.length == sub

/-- Python `str.rfind(sub, a, b)`: the largest index `i` with
`a ≤ i`, `i + sub.length ≤ b` and `sub` occurring at `i`, if any. -/
def pyRfind (l sub : List Char) (a b : Nat) : Option Nat :=
  ((List.range' a (b + 1 - sub.length - a)).filter (fun i => matchesAt l sub i)).getLast?

/-- Python `str.rfind` with its `-1` not-found convention. -/
def pyRfindI (l sub : List Char) (a b : Nat) : Int :=
  match pyRfind l sub a b with
  | none => -1
  | some i => (i : Int)

/-! ### The chunker (`_chunk_text`) -/

/-- Characters per chunk (`CHUNK_SIZE = 500`). -/
def CHUNK_SIZE : Nat := 500

/-- Overlap between consecutive chunks (`CHUNK_OVERLAP = 50`). -/
def CHUNK_OVERLAP : Nat := 50

/-- Start of the boundary lookback window:
`search_start = max(end - 100, start)` with `end = start + CHUNK_SIZE`. -/
def searchStart (s : Nat) : Nat := max (s + CHUNK_SIZE - 100) s

/-- The boundary candidate `break_point = max(last_period, last_newline)`
searched in the last 100 characters of the prospective chunk. -/
def breakPoint (text : List Char) (s : Nat) : Int :=
  max (pyRfindI text ['.', ' '] (searchStart s) (s + CHUNK_SIZE))
      (pyRfindI text ['\n'] (searchStart s) (s + CHUNK_SIZE))

/-- The end position of the chunk that starts at `s`: the raw budget point
`s + CHUNK_SIZE`, moved back to just after a sentence boundary when one
exists in the lookback window and the chunk does not already reach the
end of the text. -/
def chunkEnd (text : List Char) (s : Nat) : Nat :=
  if s + CHUNK_SIZE < text.length then
    if (s : Int) < breakPoint text s then (breakPoint text s).toNat + 1
    else s + CHUNK_SIZE
  else s + CHUNK_SIZE

/-- The loop update `start = end - CHUNK_OVERLAP if end < text_len else text_len`. -/
def nextStart (text : List Char) (s : Nat) : Nat :=
  if chunkEnd text s < text.length then chunkEnd text s - CHUNK_OVERLAP else text.length

/-- The chunking loop of `_chunk_text`, with a fuel argument bounding the
number of iterations (the fuel supplied by `chunk_text` is proven never to
run out: each iteration advances `start`). -/
def chunkLoop (text : List Char) : Nat → Nat → List (List Char)
  | 0, _ => []
  | fuel + 1, s =>
    if s < text.length then
      if pyStrip (pySlice text s (chunkEnd text s)) = [] then
        chunkLoop text fuel (nextStart text s)
      else
        pyStrip (pySlice text s (chunkEnd text s)) :: chunkLoop text fuel (nextStart text s)
    else []

/-- The chunker `_chunk_text`: empty or whitespace-only text produces no
chunks; otherwise the text is split into overlapping chunks of at most
`CHUNK_SIZE` characters, preferring sentence/newline boundaries. -/
def chunk_text (text : List Char) : List (List Char) :=
  if text = [] ∨ pyStrip text = [] then []
  else chunkLoop text (text.length + 1) 0

/-! ### Basic chunker lemmas -/

theorem pyRfind_some_bounds {l sub : List Char} {a b i : Nat}
    (h : pyRfind l sub a b = some i) : a ≤ i ∧ i + sub.length ≤ b := by
  unfold pyRfind at h
  have hmem : i ∈ (List.range' a (b + 1 - sub.length - a)).filter
      (fun i => matchesAt l sub i) := by
    obtain ⟨hne, heq⟩ := List.mem_getLast?_eq_getLast (Option.mem_def.mpr h)
    exact heq ▸ List.getLast_mem hne
  have hr : i ∈ List.range' a (b + 1 - sub.length - a) := (List.mem_filter.mp hmem).1
  have := List.mem_range'.mp hr
  omega

theorem searchStart_eq (s : Nat) : searchStart s = s + 400 := by
  simp [searchStart, CHUNK_SIZE]

theorem breakPoint_bounds {text : List Char} {s : Nat}
    (h : (s : Int) < breakPoint text s) :
    s + 400 ≤ (breakPoint text s).toNat ∧ (breakPoint text s).toNat + 1 ≤ s + 500 := by
  unfold breakPoint at *
  rcases hp : pyRfind text ['.', ' '] (searchStart s) (s + CHUNK_SIZE) with _ | i
  all_goals rcases hq : pyRfind text ['\n'] (searchStart s) (s + CHUNK_SIZE) with _ | j
  all_goals
    simp only [pyRfindI, hp, hq] at h ⊢
  · omega
  · have := pyRfind_some_bounds hq
    rw [searchStart_eq] at this
    simp [CHUNK_SIZE] at this ⊢
    omega
  · have := pyRfind_some_bounds hp
    rw [searchStart_eq] at this
    simp [CHUNK_SIZE] at this ⊢
    omega
  · have h1 := pyRfind_some_bounds hp
    have h2 := pyRfind_some_bounds hq
    rw [searchStart_eq] at h1 h2
    simp [CHUNK_SIZE] at h1 h2 ⊢
    omega

theorem chunkEnd_bounds (text : List Char) (s : Nat) :
    s + 401 ≤ chunkEnd text s ∧ chunkEnd text s ≤ s + 500 := by
  unfold chunkEnd
  split
  · split
    · next h =>
      have := breakPoint_bounds h
      omega
    · simp [CHUNK_SIZE]
  · simp [CHUNK_SIZE]

theorem nextStart_progress {text : List Char} {s : Nat} (h : s < text.length) :
    s < nextStart text s ∧
      (nextStart text s = text.length ∨ s + 350 ≤ nextStart text s) := by
  have hb := chunkEnd_bounds text s
  unfold nextStart
  split
  · simp [CHUNK_OVERLAP]
    omega
  · omega

theorem length_pyStrip_le (l : List Char) : (pyStrip l).length ≤ l.length := by
  unfold pyStrip
  calc ((l.dropWhile pyIsSpace).reverse.dropWhile pyIsSpace).reverse.length
      = ((l.dropWhile pyIsSpace).reverse.dropWhile pyIsSpace).length := by
        rw [List.length_reverse]
    _ ≤ (l.dropWhile pyIsSpace).reverse.length :=
        (List.dropWhile_suffix pyIsSpace).sublist.length_le
    _ = (l.dropWhile pyIsSpace).length := by rw [List.length_reverse]
    _ ≤ l.length := (List.dropWhile_suffix pyIsSpace).sublist.length_le

theorem mem_dropWhile_of_not {p : Char → Bool} {c : Char} :
    ∀ {l : List Char}, c ∈ l → p c = false → c ∈ l.dropWhile p
  | a :: l, hc, hp => by
    by_cases ha : p a
    · rw [List.dropWhile_cons_of_pos ha]
      rcases List.mem_cons.mp hc with rfl | h
      · rw [hp] at ha; exact absurd ha (by simp)
      · exact mem_dropWhile_of_not h hp
    · rw [List.dropWhile_cons_of_neg ha]
      exact hc

theorem mem_pyStrip {l : List Char} {c : Char} (hc : c ∈ l)
    (hp : pyIsSpace c = false) : c ∈ pyStrip l := by
  unfold pyStrip
  rw [List.mem_reverse]
  exact mem_dropWhile_of_not (List.mem_reverse.mpr (mem_dropWhile_of_not hc hp)) hp

theorem pyStrip_ne_nil {l : List Char} {c : Char} (hc : c ∈ l)
    (hp : pyIsSpace c = false) : pyStrip l ≠ [] := by
  intro h0
  have := mem_pyStrip hc hp
  rw [h0] at this
  exact absurd this (List.not_mem_nil c)

theorem length_pySlice_le (l : List Char) (a b : Nat) :
    (pySlice l a b).length ≤ b - a := by
  simp [pySlice]
  omega

theorem mem_pySlice {l : List Char} {a b i : Nat} (ha : a ≤ i) (hb : i < b)
    (hl : i < l.length) : l[i] ∈ pySlice l a b := by
  have hlen : i - a < (pySlice l a b).length := by
    simp [pySlice]
    omega
  have h1 : (pySlice l a b)[i - a] = l[i] := by
    simp [pySlice, List.getElem_drop, List.getElem_take]
    congr 1
    omega
  exact h1 ▸ List.getElem_mem hlen

theorem chunk_piece_len_le (text : List Char) (s : Nat) :
    (pyStrip (pySlice text s (chunkEnd text s))).length ≤ 500 := by
  have h1 := length_pyStrip_le (pySlice text s (chunkEnd text s))
  have h2 := length_pySlice_le text s (chunkEnd text s)
  have h3 := chunkEnd_bounds text s
  omega

theorem chunkLoop_chunk_le (text : List Char) :
    ∀ fuel s, ∀ ch ∈ chunkLoop text fuel s, ch.length ≤ 500 := by
  intro fuel
  induction fuel with
  | zero => intro s ch h; simp [chunkLoop] at h
  | succ n ih =>
    intro s ch h
    rw [chunkLoop] at h
    split at h
    · split at h
      · exact ih _ ch h
      · rcases List.mem_cons.mp h with rfl | h2
        · exact chunk_piece_len_le text s
        · exact ih _ ch h2
    · exact absurd h (List.not_mem_nil ch)

theorem chunkLoop_count_le (text : List Char) :
    ∀ fuel s, (chunkLoop text fuel s).length ≤ text.length - s := by
  intro fuel
  induction fuel with
  | zero => intro s; simp [chunkLoop]
  | succ n ih =>
    intro s
    rw [chunkLoop]
    split
    · next hs =>
      have hprog := nextStart_progress hs
      split
      · calc (chunkLoop text n (nextStart text s)).length
            ≤ text.length - nextStart text s := ih _
          _ ≤ text.length - s := by omega
      · simp only [List.length_cons]
        have := ih (nextStart text s)
        omega
    · simp

theorem chunkLoop_coverage (text : List Char) :
    ∀ fuel s i (hi : i < text.length), text.length - s < fuel → s ≤ i →
      pyIsSpace text[i] = false →
      ∃ ch ∈ chunkLoop text fuel s, text[i] ∈ ch := by
  intro fuel
  induction fuel with
  | zero => intro s i hi hfuel; omega
  | succ n ih =>
    intro s i hi hfuel hsi hw
    have hslt : s < text.length := lt_of_le_of_lt hsi hi
    rw [chunkLoop, if_pos hslt]
    by_cases hcase : i < chunkEnd text s
    · have hmem : text[i] ∈ pySlice text s (chunkEnd text s) :=
        mem_pySlice hsi hcase hi
      have hmem2 : text[i] ∈ pyStrip (pySlice text s (chunkEnd text s)) :=
        mem_pyStrip hmem hw
      have hne : pyStrip (pySlice text s (chunkEnd text s)) ≠ [] := by
        intro h0
        rw [h0] at hmem2
        exact absurd hmem2 (List.not_mem_nil _)
      rw [if_neg hne]
      exact ⟨_, List.mem_cons_self _ _, hmem2⟩
    · have hee : chunkEnd text s ≤ i := Nat.le_of_not_lt hcase
      have helt : chunkEnd text s < text.length := lt_of_le_of_lt hee hi
      have hns : nextStart text s ≤ i := by
        unfold nextStart
        rw [if_pos helt]
        omega
      have hprog := nextStart_progress hslt
      have hfuel2 : text.length - nextStart text s < n := by omega
      obtain ⟨ch, hch, hmemc⟩ := ih (nextStart text s) i hi hfuel2 hns hw
      by_cases h0 : pyStrip (pySlice text s (chunkEnd text s)) = []
      · rw [if_pos h0]
        exact ⟨ch, hch, hmemc⟩
      · rw [if_neg h0]
        exact ⟨ch, List.mem_cons_of_mem _ hch, hmemc⟩

/-! ### Claim C8: chunk size bound -/

/-- C8: every chunk produced by `_chunk_text` has length at most
`chunk_target_size + lookback_window = 500 + 100 = 600` characters
(the implementation in fact guarantees the stronger bound 500). -/
theorem chunk_size_bound (text ch : List Char) (h : ch ∈ chunk_text text) :
    ch.length ≤ CHUNK_SIZE + 100 := by
  unfold chunk_text at h
  split at h
  · exact absurd h (List.not_mem_nil ch)
  · have := chunkLoop_chunk_le text (text.length + 1) 0 ch h
    simp [CHUNK_SIZE]
    omega

/-- Witness for C8 at the concrete text `"a"`. -/
theorem chunk_size_bound_witness :
    (['a'] ∈ chunk_text ['a']) ∧ (['a'] : List Char).length ≤ CHUNK_SIZE + 100 :=
  ⟨by decide, chunk_size_bound ['a'] ['a'] (by decide)⟩

/-! ### Claim C9: termination of the chunking loop -/

/-- C9: the chunking loop terminates: from any position `s` inside the
text, the loop either jumps to the end of the text or advances the start
position by at least `350 = 500 - 100 - 50` characters (it in fact
advances by at least 351), and the number of chunks — one per loop
iteration at most — is bounded by the text length. -/
theorem chunk_text_terminates (text : List Char) (s : Nat) (h : s < text.length) :
    (nextStart text s = text.length ∨ s + 350 ≤ nextStart text s) ∧
    s < nextStart text s ∧ (chunk_text text).length ≤ text.length := by
  have hprog := nextStart_progress h
  refine ⟨hprog.2, hprog.1, ?_⟩
  unfold chunk_text
  split
  · simp
  · have := chunkLoop_count_le text (text.length + 1) 0
    omega

/-- Witness for C9 at the concrete text `"ab"` and position 0. -/
theorem chunk_text_terminates_witness :
    (nextStart ['a', 'b'] 0 = (['a', 'b'] : List Char).length ∨
      0 + 350 ≤ nextStart ['a', 'b'] 0) ∧
    0 < nextStart ['a', 'b'] 0 ∧
    (chunk_text ['a', 'b']).length ≤ (['a', 'b'] : List Char).length :=
  chunk_text_terminates ['a', 'b'] 0 (by decide)

/-! ### Claim C6: chunk coverage -/

/-- C6 counterexample: the claim that every character of the input appears
in at least one chunk fails on the two-character text `" a"`: its single
chunk is `"a"` after per-chunk stripping, so the leading space appears in
no chunk. -/
theorem chunk_coverage_cex :
    ¬ (∀ c ∈ ([' ', 'a'] : List Char), ∃ ch ∈ chunk_text [' ', 'a'], c ∈ ch) := by
  decide

/-- C6 amended: every non-whitespace character of the input appears in at
least one chunk; only whitespace characters at the (stripped) edges of a
chunk window can fail to appear. -/
theorem chunk_coverage_nonspace (text : List Char) (i : Nat) (hi : i < text.length)
    (hw : pyIsSpace text[i] = false) :
    ∃ ch ∈ chunk_text text, text[i] ∈ ch := by
  have htne : text ≠ [] := by
    intro h0
    rw [h0] at hi
    exact absurd hi (by simp)
  have hsne : pyStrip text ≠ [] := pyStrip_ne_nil (List.getElem_mem hi) hw
  unfold chunk_text
  rw [if_neg (by push_neg; exact ⟨htne, hsne⟩)]
  exact chunkLoop_coverage text (text.length + 1) 0 i hi (by omega) (Nat.zero_le _) hw

/-- Witness for the amended C6 at the concrete text `"a"`. -/
theorem chunk_coverage_nonspace_witness :
    ∃ ch ∈ chunk_text ['a'], (['a'] : List Char)[0] ∈ ch :=
  chunk_coverage_nonspace ['a'] 0 (by decide) (by decide)

/-! ### Decimal rendering of identifiers

The chunk identifier is built by the f-string
`f"paper_(paper_id)_chunk_(i)"` (braces elided); its integer
interpolation is embedded here as an explicit decimal renderer. -/

/-- The decimal digit character for a value 0–9. -/
def digitChar : Nat → Char
  | 0 => '0' | 1 => '1' | 2 => '2' | 3 => '3' | 4 => '4'
  | 5 => '5' | 6 => '6' | 7 => '7' | 8 => '8' | 9 => '9'
  | _ => '*'

/-- Decimal rendering of a natural number, fuel-structured so that it
computes by kernel reduction; the fuel `n + 1` always suffices. -/
def natStrAux : Nat → Nat → List Char
  | 0, _ => []
  | fuel + 1, n =>
    if n < 10 then [digitChar n]
    else natStrAux fuel (n / 10) ++ [digitChar (n % 10)]

/-- Decimal rendering of a natural number (Python `str` on a nonnegative int). -/
def natStr (n : Nat) : List Char := natStrAux (n + 1) n

/-- Python `str` on an int: a minus sign followed by the digits for
negative values. -/
def intStr (i : Int) : List Char :=
  if i < 0 then '-' :: natStr i.natAbs else natStr i.toNat

/-- The chunk identifier `"paper_" + str(paper_id) + "_chunk_" + str(i)`
used by `add_paper` for the chunk with sequence number `i`. -/
def chunkId (d : Int) (i : Nat) : List Char :=
  "paper_".toList ++ intStr d ++ "_chunk_".toList ++ natStr i

/-- Numeric value of a decimal digit character (inverse of `digitChar`). -/
def charVal : Char → Nat
  | '0' => 0 | '1' => 1 | '2' => 2 | '3' => 3 | '4' => 4
  | '5' => 5 | '6' => 6 | '7' => 7 | '8' => 8 | '9' => 9
  | _ => 0

/-- Value of a digit string, used to invert `natStr`. -/
def valOfDigits (l : List Char) : Nat :=
  l.foldl (fun a c => 10 * a + charVal c) 0

theorem charVal_digitChar {d : Nat} (h : d < 10) : charVal (digitChar d) = d := by
  interval_cases d <;> decide

theorem valOfDigits_append_digit (l : List Char) (c : Char) :
    valOfDigits (l ++ [c]) = 10 * valOfDigits l + charVal c := by
  unfold valOfDigits
  rw [List.foldl_append]
  rfl

theorem valOfDigits_natStrAux : ∀ fuel n, n < fuel → valOfDigits (natStrAux fuel n) = n := by
  intro fuel
  induction fuel with
  | zero => intro n h; omega
  | succ m ih =>
    intro n h
    rw [natStrAux]
    split
    · next h10 =>
      unfold valOfDigits
      simp [List.foldl]
      exact charVal_digitChar h10
    · next h10 =>
      rw [valOfDigits_append_digit]
      have hd : n / 10 < m := by omega
      rw [ih _ hd, charVal_digitChar (Nat.mod_lt n (by omega))]
      omega

theorem valOfDigits_natStr (n : Nat) : valOfDigits (natStr n) = n :=
  valOfDigits_natStrAux (n + 1) n (by omega)

theorem natStr_injective {m n : Nat} (h : natStr m = natStr n) : m = n := by
  have := valOfDigits_natStr m
  rw [h, valOfDigits_natStr] at this
  omega

theorem chunkId_inj {d : Int} {i j : Nat} (h : chunkId d i = chunkId d j) : i = j := by
  unfold chunkId at h
  exact natStr_injective (List.append_cancel_left h)

/-! ### The ChromaDB collection, modelled as an association list

A stored record carries the chunk text and the metadata written by
`add_paper` (`paper_id`, `chunk_index`); the collection is a list of
(identifier, record) pairs addressed by identifier. -/

/-- One stored chunk record: the metadata `paper_id` / `chunk_index`
written by `add_paper`, plus the chunk text. -/
structure ChunkRec where
  doc : Int
  idx : Nat
  body : List Char
deriving DecidableEq

/-- The collection state. -/
abbrev Store := List (List Char × ChunkRec)

/-- The identifiers present in the store. -/
def keysOf (s : Store) : List (List Char) := s.map Prod.fst

/-- The identifiers stored for a given `paper_id`
(`collection.get(where=paper_id)["ids"]`). -/
def idsFor (s : Store) (d : Int) : List (List Char) :=
  (s.filter (fun e => decide (e.2.doc = d))).map Prod.fst

/-- `collection.delete(ids=...)`: remove every record whose identifier is
in the given list. -/
def deleteIds (s : Store) (ids : List (List Char)) : Store :=
  s.filter (fun e => decide (e.1 ∉ ids))

/-- Upsert of a single record: overwrite any record stored under the same
identifier. -/
def upsertOne (s : Store) (id : List Char) (r : ChunkRec) : Store :=
  s.filter (fun e => decide (e.1 ≠ id)) ++ [(id, r)]

/-- Upsert of a batch of records in order.  `add_paper` issues the upserts
in groups of at most 100 records; grouping a sequential upsert does not
change the resulting store, so the batching is modelled as one ordered
upsert of all records. -/
def upsertAll (s : Store) (recs : List (List Char × ChunkRec)) : Store :=
  recs.foldl (fun acc er => upsertOne acc er.1 er.2) s

/-- The records `add_paper` writes for a document: chunk `i` under
identifier `chunkId d i` with metadata `paper_id = d`, `chunk_index = i`. -/
def buildRecs (d : Int) (chunks : List (List Char)) : List (List Char × ChunkRec) :=
  (List.range chunks.length).map (fun i => (chunkId d i, ⟨d, i, chunks.getD i []⟩))

/-- Which backend calls raise, injected as flags: `collection.get`,
`collection.delete`, `collection.upsert`, `collection.query`,
`collection.count`. -/
structure FailSpec where
  getFails : Bool
  delFails : Bool
  upsertFails : Bool
  queryFails : Bool
  countFails : Bool
deriving DecidableEq

/-- The failure-free backend. -/
def noFail : FailSpec := ⟨false, false, false, false, false⟩

/-- The indexing entry point `add_paper(paper_id, text)`.  Empty chunking
returns 0 immediately.  Otherwise the stale-chunk cleanup (get existing
ids, delete those not among the new ids) runs inside `try/except: pass`,
so its failure leaves the store as it was; the subsequent upserts are
*not* guarded, so an upsert failure escapes as an exception (`none`). -/
def add_paper (fs : FailSpec) (s : Store) (d : Int) (text : List Char) :
    Option (Store × Nat) :=
  let chunks := chunk_text text
  if chunks = [] then some (s, 0)
  else
    let newIds := (List.range chunks.length).map (chunkId d)
    let s1 :=
      if fs.getFails || fs.delFails then s
      else deleteIds s ((idsFor s d).filter (fun a => decide (a ∉ newIds)))
    if fs.upsertFails then none
    else some (upsertAll s1 (buildRecs d chunks), chunks.length)

/-- The retrieval entry point `query_paper(paper_id, query, n_results)`.
The count and the query run inside `try/except: return []`; with a
nonempty collection the backend query is asked for
`safe_n = min(n_results, count)` results.  The ranked answer of the
backend (a function of the embedding model) is the oracle `ann`. -/
def query_paper (fs : FailSpec) (s : Store) (q : List Char)
    (ann : List Char → Int → Nat → List (List Char)) (d : Int) (n : Nat) :
    List (List Char) :=
  if fs.countFails then []
  else if s.length = 0 then []
  else if fs.queryFails then []
  else ann q d (min n s.length)

/-- The deletion entry point `delete_paper(paper_id)`: get the ids stored
for the paper and delete them, all inside `try/except`, so backend
failures leave the store unchanged and no exception escapes (the result
is always `some`). -/
def delete_paper (fs : FailSpec) (s : Store) (d : Int) : Option Store :=
  some (if fs.getFails || fs.delFails then s else deleteIds s (idsFor s d))

/-! ### Membership lemmas for the store operations -/

theorem mem_idsFor {s : Store} {d : Int} {a : List Char} :
    a ∈ idsFor s d ↔ ∃ r, (a, r) ∈ s ∧ r.doc = d := by
  unfold idsFor
  simp only [List.mem_map, List.mem_filter, decide_eq_true_eq]
  constructor
  · rintro ⟨⟨a0, r⟩, ⟨hmem, hdoc⟩, rfl⟩
    exact ⟨r, hmem, hdoc⟩
  · rintro ⟨r, hmem, hdoc⟩
    exact ⟨(a, r), ⟨hmem, hdoc⟩, rfl⟩

theorem mem_deleteIds {s : Store} {ids : List (List Char)} {e : List Char × ChunkRec} :
    e ∈ deleteIds s ids ↔ e ∈ s ∧ e.1 ∉ ids := by
  unfold deleteIds
  simp [List.mem_filter]

theorem mem_upsertOne {s : Store} {id : List Char} {r : ChunkRec}
    {e : List Char × ChunkRec} :
    e ∈ upsertOne s id r ↔ (e ∈ s ∧ e.1 ≠ id) ∨ e = (id, r) := by
  unfold upsertOne
  simp [List.mem_filter]

theorem key_mem_upsertOne {s : Store} {id a : List Char} {r : ChunkRec}
    (h : a ∈ keysOf s) : a ∈ keysOf (upsertOne s id r) := by
  unfold keysOf at *
  obtain ⟨e, he, rfl⟩ := List.mem_map.mp h
  by_cases hk : e.1 = id
  · exact List.mem_map.mpr ⟨(id, r), mem_upsertOne.mpr (Or.inr rfl), hk.symm⟩
  · exact List.mem_map.mpr ⟨e, mem_upsertOne.mpr (Or.inl ⟨he, hk⟩), rfl⟩

theorem upsertAll_cons (s : Store) (hd : List Char × ChunkRec)
    (tl : List (List Char × ChunkRec)) :
    upsertAll s (hd :: tl) = upsertAll (upsertOne s hd.1 hd.2) tl := rfl

theorem mem_upsertAll_of_mem {recs : List (List Char × ChunkRec)} :
    ∀ {s : Store} {e : List Char × ChunkRec},
      e ∈ upsertAll s recs → e ∈ s ∨ e ∈ recs := by
  induction recs with
  | nil => intro s e h; exact Or.inl h
  | cons hd tl ih =>
    intro s e h
    rw [upsertAll_cons] at h
    rcases ih h with h1 | h1
    · rcases mem_upsertOne.mp h1 with ⟨h2, _⟩ | h2
      · exact Or.inl h2
      · exact Or.inr (h2 ▸ List.mem_cons_self _ _)
    · exact Or.inr (List.mem_cons_of_mem _ h1)

theorem key_mem_upsertAll_of_mem {recs : List (List Char × ChunkRec)} :
    ∀ {s : Store} {a : List Char}, a ∈ keysOf s → a ∈ keysOf (upsertAll s recs) := by
  induction recs with
  | nil => intro s a h; exact h
  | cons hd tl ih =>
    intro s a h
    rw [upsertAll_cons]
    exact ih (key_mem_upsertOne h)

theorem key_mem_upsertAll {recs : List (List Char × ChunkRec)} :
    ∀ {s : Store} {a : List Char}, a ∈ recs.map Prod.fst →
      a ∈ keysOf (upsertAll s recs) := by
  induction recs with
  | nil => intro s a h; exact absurd h (List.not_mem_nil a)
  | cons hd tl ih =>
    intro s a h
    rw [upsertAll_cons]
    rcases List.mem_cons.mp h with rfl | h2
    · refine key_mem_upsertAll_of_mem ?_
      unfold keysOf
      exact List.mem_map.mpr ⟨(hd.1, hd.2), mem_upsertOne.mpr (Or.inr rfl), rfl⟩
    · exact ih h2

theorem mem_upsertAll_key_new {recs : List (List Char × ChunkRec)} :
    ∀ {s : Store} {e : List Char × ChunkRec},
      e ∈ upsertAll s recs → e.1 ∈ recs.map Prod.fst → e ∈ recs := by
  induction recs with
  | nil => intro s e _ hk; exact absurd hk (List.not_mem_nil _)
  | cons hd tl ih =>
    intro s e h hk
    rw [upsertAll_cons] at h
    by_cases htl : e.1 ∈ tl.map Prod.fst
    · exact List.mem_cons_of_mem _ (ih h htl)
    · rcases List.mem_cons.mp hk with heq | h2
      · rcases mem_upsertAll_of_mem h with h3 | h3
        · rcases mem_upsertOne.mp h3 with ⟨_, hne⟩ | h4
          · exact absurd heq hne
          · rw [h4]
            exact List.mem_cons_self _ _
        · exact List.mem_cons_of_mem _ h3
      · exact absurd h2 htl

theorem mem_upsertAll_of_rec {recs : List (List Char × ChunkRec)} :
    ∀ {s : Store} {e : List Char × ChunkRec},
      (recs.map Prod.fst).Nodup → e ∈ recs → e ∈ upsertAll s recs := by
  induction recs with
  | nil => intro s e _ h; exact absurd h (List.not_mem_nil e)
  | cons hd tl ih =>
    intro s e hnd h
    have hnd2 := List.nodup_cons.mp hnd
    rw [upsertAll_cons]
    rcases List.mem_cons.mp h with rfl | h2
    · -- the record is the head; it survives the remaining upserts because
      -- no later record reuses its identifier
      have hstart : e ∈ upsertOne s e.1 e.2 := mem_upsertOne.mpr (Or.inr rfl)
      have hkeep : ∀ {tl2 : List (List Char × ChunkRec)} {s2 : Store},
          e ∈ s2 → e.1 ∉ tl2.map Prod.fst → e ∈ upsertAll s2 tl2 := by
        intro tl2
        induction tl2 with
        | nil => intro s2 h1 _; exact h1
        | cons hd3 tl3 ih3 =>
          intro s2 h1 h2
          rw [upsertAll_cons]
          have hne : e.1 ≠ hd3.1 := by
            intro heq
            exact h2 (List.mem_map.mpr ⟨hd3, List.mem_cons_self _ _, heq.symm⟩)
          refine ih3 (mem_upsertOne.mpr (Or.inl ⟨h1, hne⟩)) ?_
          intro hmem
          exact h2 (List.mem_cons_of_mem _ hmem)
      exact hkeep hstart hnd2.1
    · exact ih hnd2.2 h2

theorem buildRecs_keys (d : Int) (chunks : List (List Char)) :
    (buildRecs d chunks).map Prod.fst = (List.range chunks.length).map (chunkId d) := by
  simp [buildRecs, List.map_map, Function.comp]

theorem buildRecs_doc {d : Int} {chunks : List (List Char)}
    {e : List Char × ChunkRec} (h : e ∈ buildRecs d chunks) : e.2.doc = d := by
  unfold buildRecs at h
  obtain ⟨i, _, rfl⟩ := List.mem_map.mp h
  rfl

theorem buildRecs_keys_nodup (d : Int) (chunks : List (List Char)) :
    ((buildRecs d chunks).map Prod.fst).Nodup := by
  rw [buildRecs_keys]
  exact (List.nodup_range _).map (fun i j h => chunkId_inj h)

/-! ### Claim C1: re-indexing leaves exactly the new chunk set -/

/-- C1: when the chunking of `text` is non-empty and `add_paper` runs with
a failure-free backend, the set of identifiers stored for the document
afterwards is exactly the identifier set of the new chunk sequence —
stale identifiers of an earlier, longer pass are deleted and nothing else
for this document survives. -/
theorem add_paper_reindex (s : Store) (d : Int) (text : List Char)
    (h : chunk_text text ≠ []) :
    ∃ s2, add_paper noFail s d text = some (s2, (chunk_text text).length) ∧
      ∀ a : List Char, a ∈ idsFor s2 d ↔
        a ∈ (List.range (chunk_text text).length).map (chunkId d) := by
  simp only [add_paper, noFail, Bool.or_self, Bool.false_eq_true, if_neg h, if_false]
  refine ⟨_, rfl, ?_⟩
  intro a
  constructor
  · intro hmem
    obtain ⟨r, hr, hdoc⟩ := mem_idsFor.mp hmem
    rcases mem_upsertAll_of_mem hr with h1 | h1
    · obtain ⟨h2, h3⟩ := mem_deleteIds.mp h1
      have hold : a ∈ idsFor s d := mem_idsFor.mpr ⟨r, h2, hdoc⟩
      by_contra hnew
      exact h3 (List.mem_filter.mpr ⟨hold, by simpa using hnew⟩)
    · have : a ∈ (buildRecs d (chunk_text text)).map Prod.fst :=
        List.mem_map.mpr ⟨(a, r), h1, rfl⟩
      rwa [buildRecs_keys] at this
  · intro hnew
    have hkeys : a ∈ keysOf (upsertAll
        (deleteIds s ((idsFor s d).filter
          (fun a => decide (a ∉ (List.range (chunk_text text).length).map (chunkId d)))))
        (buildRecs d (chunk_text text))) := by
      refine key_mem_upsertAll ?_
      rwa [buildRecs_keys]
    obtain ⟨e, he, rfl⟩ := List.mem_map.mp hkeys
    have hinrecs : e ∈ buildRecs d (chunk_text text) := by
      refine mem_upsertAll_key_new he ?_
      rwa [buildRecs_keys]
    exact mem_idsFor.mpr ⟨e.2, he, buildRecs_doc hinrecs⟩

/-- Witness for C1: a store holding five chunks for paper 7 re-indexed
with a text chunking to a single chunk. -/
theorem add_paper_reindex_witness :
    ∃ s2, add_paper noFail
        [(chunkId 7 0, ⟨7, 0, ['x']⟩), (chunkId 7 1, ⟨7, 1, ['x']⟩),
         (chunkId 7 2, ⟨7, 2, ['x']⟩), (chunkId 7 3, ⟨7, 3, ['x']⟩),
         (chunkId 7 4, ⟨7, 4, ['x']⟩)] 7 ['a'] = some (s2, (chunk_text ['a']).length) ∧
      ∀ a : List Char, a ∈ idsFor s2 7 ↔
        a ∈ (List.range (chunk_text ['a']).length).map (chunkId 7) :=
  add_paper_reindex _ 7 ['a'] (by decide)

/-! ### Claim C2: indexing with empty chunking -/

/-- C2 counterexample: calling `add_paper` on a store that already holds a
chunk for paper 7 with text whose chunking is empty returns 0 but performs
*no* delete — the store is unchanged and the old chunk identifier is still
present, contradicting the claimed full `delete(document_id)`. -/
theorem add_paper_empty_cex :
    add_paper noFail [(chunkId 7 0, ⟨7, 0, ['x']⟩)] 7 [] =
      some ([(chunkId 7 0, ⟨7, 0, ['x']⟩)], 0) ∧
    chunkId 7 0 ∈ idsFor [(chunkId 7 0, ⟨7, 0, ['x']⟩)] 7 := by
  decide

/-- C2 amended: when the chunking of the text is empty, `add_paper`
returns a chunk count of 0 and leaves the store exactly as it was — it
does not delete the document's previously indexed chunks (and no backend
failure can disturb this, as no backend call is made). -/
theorem add_paper_empty_noop (fs : FailSpec) (s : Store) (d : Int)
    (text : List Char) (h : chunk_text text = []) :
    add_paper fs s d text = some (s, 0) := by
  simp [add_paper, h]

/-- Witness for the amended C2 at empty text. -/
theorem add_paper_empty_noop_witness :
    add_paper noFail [] 7 [] = some ([], 0) :=
  add_paper_empty_noop noFail [] 7 [] (by decide)

/-! ### Claim C3: the chunk identifier convention -/

/-- C3 counterexample: the identifier stored for document 7's first chunk
is `"paper_7_chunk_0"`, not the claimed `"7_chunk_0"`. -/
theorem chunk_identifier_cex :
    chunkId 7 0 = "paper_7_chunk_0".toList ∧ chunkId 7 0 ≠ "7_chunk_0".toList := by
  decide

/-- C3 amended: the identifier stored for the chunk with sequence number
`i` of document `d` is `"paper_" + str(d) + "_chunk_" + str(i)`, and the
record stored under it carries metadata `paper_id = d`, `chunk_index = i`
and the `i`-th chunk text. -/
theorem chunk_identifier_format (s : Store) (d : Int) (text : List Char) (i : Nat)
    (h : i < (chunk_text text).length) :
    ∃ s2, add_paper noFail s d text = some (s2, (chunk_text text).length) ∧
      ("paper_".toList ++ intStr d ++ "_chunk_".toList ++ natStr i,
        (⟨d, i, (chunk_text text).getD i []⟩ : ChunkRec)) ∈ s2 := by
  have hne : chunk_text text ≠ [] := by
    intro h0
    rw [h0] at h
    exact absurd h (by simp)
  simp only [add_paper, noFail, Bool.or_self, Bool.false_eq_true, if_neg hne, if_false]
  refine ⟨_, rfl, ?_⟩
  refine mem_upsertAll_of_rec (buildRecs_keys_nodup d (chunk_text text)) ?_
  unfold buildRecs
  exact List.mem_map.mpr ⟨i, List.mem_range.mpr h, rfl⟩

/-- Witness for the amended C3: indexing `"a"` as document 7 stores its
single chunk under `"paper_7_chunk_0"`. -/
theorem chunk_identifier_format_witness :
    ∃ s2, add_paper noFail [] 7 ['a'] = some (s2, (chunk_text ['a']).length) ∧
      ("paper_".toList ++ intStr 7 ++ "_chunk_".toList ++ natStr 0,
        (⟨7, 0, (chunk_text ['a']).getD 0 []⟩ : ChunkRec)) ∈ s2 :=
  chunk_identifier_format [] 7 ['a'] 0 (by decide)

/-! ### Claim C5: confinement of backend failures -/

/-- C5 counterexample: a failing backend upsert escapes `add_paper` as an
exception (the upsert loop is not inside a `try/except`), so not every
backend-interaction failure is confined to the operation that triggered
it. -/
theorem add_paper_upsert_raises_cex :
    add_paper ⟨false, false, true, false, false⟩ [] 7 ['a'] = none := by
  decide

/-- C5 amended: backend failures of the query path (`query_paper` returns
`[]`), of the delete path (`delete_paper` returns normally) and of the
stale-chunk cleanup inside `add_paper` are all confined to the operation
that triggered them; only a failure of the unguarded upsert in
`add_paper` propagates as an exception. -/
theorem backend_failure_confinement :
    (∀ (fs : FailSpec) (s : Store) (q : List Char)
        (ann : List Char → Int → Nat → List (List Char)) (d : Int) (n : Nat),
      fs.queryFails = true → query_paper fs s q ann d n = []) ∧
    (∀ (fs : FailSpec) (s : Store) (d : Int), (delete_paper fs s d).isSome) ∧
    (∀ (fs : FailSpec) (s : Store) (d : Int) (text : List Char),
      fs.upsertFails = false → (add_paper fs s d text).isSome) := by
  refine ⟨?_, ?_, ?_⟩
  · intro fs s q ann d n hq
    simp [query_paper, hq]
  · intro fs s d
    simp [delete_paper]
  · intro fs s d text hu
    simp only [add_paper]
    split
    · simp
    · simp [hu]

/-- Witness for the amended C5 at concrete failing backends. -/
theorem backend_failure_confinement_witness :
    query_paper ⟨false, false, false, true, false⟩ [] [] (fun _ _ _ => [['z']]) 7 5 = [] ∧
    (delete_paper ⟨true, true, false, false, false⟩ [] 7).isSome ∧
    (add_paper ⟨true, true, false, false, false⟩ [] 7 ['a']).isSome :=
  ⟨backend_failure_confinement.1 _ _ _ _ _ _ rfl,
   backend_failure_confinement.2.1 _ _ _,
   backend_failure_confinement.2.2 _ _ _ _ rfl⟩

/-! ### `query_papers`: batched multi-paper retrieval with fallback -/

/-- The `setdefault`-style grouping of the batched query's
(metadata `paper_id`, document) pairs, preserving first-seen order. -/
def addToGroup (m : List (Int × List (List Char))) (pid : Int) (doc : List Char) :
    List (Int × List (List Char)) :=
  if m.any (fun e => e.1 == pid) then
    m.map (fun e => if e.1 == pid then (e.1, e.2 ++ [doc]) else e)
  else m ++ [(pid, [doc])]

/-- Group the batched query result by `paper_id`. -/
def groupByPid (pairs : List (Int × List Char)) : List (Int × List (List Char)) :=
  pairs.foldl (fun m pr => addToGroup m pr.1 pr.2) []

/-- One step of the per-paper fallback loop of `query_papers`: skip the
paper when the collection is empty or its individual query raised or
returned no documents, otherwise record its (at most `min n count`)
chunks. -/
def fallbackStep (count n : Nat) (perPaper : Int → Option (List (List Char)))
    (m : List (Int × List (List Char))) (pid : Int) :
    List (Int × List (List Char)) :=
  if count = 0 then m
  else
    match perPaper pid with
    | none => m
    | some ds =>
      if ds.take (min n count) = [] then m
      else m ++ [(pid, ds.take (min n count))]

/-- The multi-paper retrieval entry point
`query_papers(paper_ids, query, n_results)`.  `count` is the collection
count; `batched` is the outcome of the single `$in`-filtered backend
query (`none` = that try-block raised), delivering (metadata `paper_id`,
document) pairs; `perPaper` is the outcome of the per-paper fallback
query.  On batched success the pairs are grouped by paper and trimmed to
`n` per paper; on failure each paper is queried individually and papers
whose individual query raises are omitted. -/
def query_papers (count : Nat) (batched : Option (List (Int × List Char)))
    (perPaper : Int → Option (List (List Char)))
    (paper_ids : List Int) (n : Nat) : List (Int × List (List Char)) :=
  if paper_ids = [] then []
  else
    match batched with
    | some pairs =>
      if count = 0 then []
      else
        (groupByPid (pairs.take (min (n * paper_ids.length) count))).map
          (fun e => (e.1, e.2.take n))
    | none => paper_ids.foldl (fallbackStep count n perPaper) []

theorem mem_foldl_fallback {count n : Nat} {perPaper : Int → Option (List (List Char))} :
    ∀ {l : List Int} {m : List (Int × List (List Char))}
      {e : Int × List (List Char)},
      e ∈ l.foldl (fallbackStep count n perPaper) m →
      e ∈ m ∨ (e.1 ∈ l ∧ ∃ ds, perPaper e.1 = some ds ∧
        e.2 = ds.take (min n count) ∧ e.2 ≠ []) := by
  intro l
  induction l with
  | nil => intro m e h; exact Or.inl h
  | cons hd tl ih =>
    intro m e h
    rcases ih h with h1 | h1
    · unfold fallbackStep at h1
      split at h1
      · exact Or.inl h1
      · split at h1
        · next heq => exact Or.inl h1
        · next ds heq =>
          split at h1
          · exact Or.inl h1
          · next hne =>
            rcases List.mem_append.mp h1 with h2 | h2
            · exact Or.inl h2
            · rcases List.mem_singleton.mp h2 with rfl
              exact Or.inr ⟨List.mem_cons_self _ _, ds, heq, rfl, hne⟩
    · exact Or.inr ⟨List.mem_cons_of_mem _ h1.1, h1.2⟩

theorem foldl_fallback_mono {count n : Nat} {perPaper : Int → Option (List (List Char))} :
    ∀ {l : List Int} {m : List (Int × List (List Char))}
      {e : Int × List (List Char)},
      e ∈ m → e ∈ l.foldl (fallbackStep count n perPaper) m := by
  intro l
  induction l with
  | nil => intro m e h; exact h
  | cons hd tl ih =>
    intro m e h
    refine ih ?_
    unfold fallbackStep
    split
    · exact h
    · split
      · exact h
      · split
        · exact h
        · exact List.mem_append.mpr (Or.inl h)

theorem foldl_fallback_hits {count n : Nat} {perPaper : Int → Option (List (List Char))}
    (hc : count ≠ 0) :
    ∀ {l : List Int} {m : List (Int × List (List Char))} {pid : Int}
      {ds : List (List Char)},
      pid ∈ l → perPaper pid = some ds → ds.take (min n count) ≠ [] →
      (pid, ds.take (min n count)) ∈ l.foldl (fallbackStep count n perPaper) m := by
  intro l
  induction l with
  | nil => intro m pid ds h; exact absurd h (List.not_mem_nil pid)
  | cons hd tl ih =>
    intro m pid ds hmem hsome hne
    rcases List.mem_cons.mp hmem with rfl | h2
    · rw [List.foldl_cons]
      refine foldl_fallback_mono ?_
      unfold fallbackStep
      rw [if_neg hc, hsome]
      show (pid, ds.take (min n count)) ∈
        (if ds.take (min n count) = [] then m else m ++ [(pid, ds.take (min n count))])
      rw [if_neg hne]
      exact List.mem_append.mpr (Or.inr (List.mem_singleton.mpr rfl))
    · exact ih h2 hsome hne

/-! ### Claim C10: the per-paper fallback of `query_papers` -/

/-- C10: when the single batched query of `query_papers` fails, the
function falls back to one query per paper: a paper whose individual
query also raises is omitted from the returned mapping, while every
paper whose individual query succeeds with a nonempty (trimmed) chunk
list appears with exactly that list, and every returned chunk list is
capped at `n_results`. -/
theorem query_papers_fallback (count n : Nat)
    (perPaper : Int → Option (List (List Char))) (paper_ids : List Int)
    (hc : count ≠ 0) :
    (∀ pid ∈ paper_ids, perPaper pid = none →
      ∀ ds, (pid, ds) ∉ query_papers count none perPaper paper_ids n) ∧
    (∀ pid ds, (pid, ds) ∈ query_papers count none perPaper paper_ids n →
      ds.length ≤ n) ∧
    (∀ pid ∈ paper_ids, ∀ ds, perPaper pid = some ds →
      ds.take (min n count) ≠ [] →
      (pid, ds.take (min n count)) ∈ query_papers count none perPaper paper_ids n) := by
  unfold query_papers
  by_cases hids : paper_ids = []
  · subst hids
    refine ⟨?_, ?_, ?_⟩
    · intro pid h; exact absurd h (List.not_mem_nil pid)
    · intro pid ds h; simp at h
    · intro pid h; exact absurd h (List.not_mem_nil pid)
  · rw [if_neg hids]
    refine ⟨?_, ?_, ?_⟩
    · intro pid hmem hnone ds hin
      rcases mem_foldl_fallback hin with h1 | ⟨_, ds2, hsome, _, _⟩
      · exact absurd h1 (List.not_mem_nil _)
      · have hsome2 : perPaper pid = some ds2 := hsome
        rw [hnone] at hsome2
        exact absurd hsome2 (by simp)
    · intro pid ds hin
      rcases mem_foldl_fallback hin with h1 | ⟨_, ds2, _, heq, _⟩
      · exact absurd h1 (List.not_mem_nil _)
      · have heq2 : ds = ds2.take (min n count) := heq
        have : ds.length ≤ min n count := by
          rw [heq2]
          simp
        omega
    · intro pid hmem ds hsome hne
      exact foldl_fallback_hits hc hmem hsome hne

/-- Witness for C10: two papers, the second one's fallback query raising. -/
theorem query_papers_fallback_witness :
    (∀ ds, (2, ds) ∉ query_papers 1 none
      (fun pid => if pid == 1 then some [['a']] else none) [1, 2] 2) ∧
    ((1, [['a']].take (min 2 1)) ∈ query_papers 1 none
      (fun pid => if pid == 1 then some [['a']] else none) [1, 2] 2) :=
  ⟨(query_papers_fallback 1 2 (fun pid => if pid == 1 then some [['a']] else none)
      [1, 2] (by decide)).1 2 (by decide) (by decide),
   (query_papers_fallback 1 2 (fun pid => if pid == 1 then some [['a']] else none)
      [1, 2] (by decide)).2.2 1 (by decide) [['a']] (by decide) (by decide)⟩

/-! ### The lexical scorer (`_tokenize`, `_keyword_score`) -/

/-- A character matched by the token pattern `[a-z0-9]+` (after lowercasing). -/
def isTokenChar (c : Char) : Bool :=
  ('a' ≤ c && c ≤ 'z') || ('0' ≤ c && c ≤ '9')

/-- Maximal-run extraction for `re.findall(r"[a-z0-9]+", ...)`,
accumulating the current run in reverse. -/
def tokenizeAux : List Char → List Char → List (List Char)
  | [], cur => if cur = [] then [] else [cur.reverse]
  | c :: rest, cur =>
    if isTokenChar c then tokenizeAux rest (c :: cur)
    else if cur = [] then tokenizeAux rest [] else cur.reverse :: tokenizeAux rest []

/-- The tokenizer `_tokenize`: lowercase, then extract maximal runs of
alphanumeric characters. -/
def tokenize (text : List Char) : List (List Char) :=
  tokenizeAux (text.map Char.toLower) []

/-- The lexical scorer `_keyword_score`: weighted hits (title 3, authors
2, abstract 1, additive across fields) normalised by
`len(query_tokens) * 6` and clamped to 1. -/
def keyword_score (queryTokens : List (List Char))
    (title authors abstract : List Char) : ℚ :=
  if queryTokens = [] then 0
  else if ((queryTokens.length : ℚ) * 6) > 0 then
    min ((queryTokens.foldl (fun sc qt =>
      sc + (if qt ∈ tokenize title then 3 else 0)
         + (if qt ∈ tokenize authors then 2 else 0)
         + (if qt ∈ tokenize abstract then 1 else 0)) 0) /
      ((queryTokens.length : ℚ) * 6)) 1
  else 0

/-! ### Claim C4: the lexical score example -/

theorem keyword_score_graph_example :
    keyword_score (tokenize "graph learning".toList)
      "Deep Learning for Graphs".toList "A. Smith".toList
      "graph neural networks".toList = 1/3 := by
  have hq : tokenize "graph learning".toList =
      ["graph".toList, "learning".toList] := by decide
  have ht : tokenize "Deep Learning for Graphs".toList =
      ["deep".toList, "learning".toList, "for".toList, "graphs".toList] := by decide
  have ha : tokenize "A. Smith".toList = ["a".toList, "smith".toList] := by decide
  have hb : tokenize "graph neural networks".toList =
      ["graph".toList, "neural".toList, "networks".toList] := by decide
  unfold keyword_score
  rw [hq, ht, ha, hb]
  rw [if_neg (by decide)]
  rw [if_pos (by norm_num)]
  rw [List.foldl_cons, List.foldl_cons, List.foldl_nil]
  rw [if_neg (by decide), if_neg (by decide), if_pos (by decide),
    if_pos (by decide), if_neg (by decide), if_neg (by decide)]
  rw [min_eq_left (by norm_num)]
  norm_num

/-- C4 counterexample: on the spec's own example document and query the
lexical score is not `7/12`: the title token is `"graphs"` (plural), so
the query token `"graph"` does not hit the title. -/
theorem lexical_score_example_cex :
    keyword_score (tokenize "graph learning".toList)
      "Deep Learning for Graphs".toList "A. Smith".toList
      "graph neural networks".toList ≠ 7/12 := by
  rw [keyword_score_graph_example]
  norm_num

/-- C4 amended: the query tokenizes to `["graph", "learning"]`;
`"graph"` hits only the abstract (weight 1), `"learning"` hits the title
(weight 3); the total 4 is divided by `2 * 6 = 12`, so the score is
`4/12 = 1/3` (approximately 0.333), not `7/12`. -/
theorem lexical_score_example :
    tokenize "graph learning".toList = ["graph".toList, "learning".toList] ∧
    keyword_score (tokenize "graph learning".toList)
      "Deep Learning for Graphs".toList "A. Smith".toList
      "graph neural networks".toList = 4/12 :=
  ⟨by decide, by rw [keyword_score_graph_example]; norm_num⟩

/-! ### The hybrid ranker (`hybrid_search_papers`) -/

/-- A candidate document as seen by the hybrid ranker: its id and the
structured fields used by the lexical scorer. -/
structure PaperDoc where
  pid : Int
  title : List Char
  authors : List Char
  abstract : List Char
deriving DecidableEq

/-- One row of the hybrid result: document id and the three reported
scores (`relevance_score`, `keyword_score`, `semantic_score`). -/
structure ScoredEntry where
  pid : Int
  rel : ℚ
  kw : ℚ
  sem : ℚ
deriving DecidableEq

/-- `KEYWORD_WEIGHT = 0.4`. -/
def KEYWORD_WEIGHT : ℚ := 0.4

/-- `SEMANTIC_WEIGHT = 0.6`. -/
def SEMANTIC_WEIGHT : ℚ := 0.6

/-- Python `round(x, 4)` idealised on rationals: round to 4 decimal
places, ties to even. -/
def pyRound4 (x : ℚ) : ℚ :=
  ((if x * 10000 - (⌊x * 10000⌋ : ℚ) > 1/2 then ⌊x * 10000⌋ + 1
    else if x * 10000 - (⌊x * 10000⌋ : ℚ) < 1/2 then ⌊x * 10000⌋
    else if ⌊x * 10000⌋ % 2 = 0 then ⌊x * 10000⌋ else ⌊x * 10000⌋ + 1 : Int) : ℚ)
    / 10000

/-- `semantic_scores.get(p.id, 0.0)`. -/
def semLookup (semScores : List (Int × ℚ)) (pid : Int) : ℚ :=
  (semScores.lookup pid).getD 0

/-- Stable insertion for the descending sort on `relevance_score`:
an element moves ahead only of entries with strictly smaller relevance,
so input order is kept among equal scores (Python's stable `sort` with
`reverse=True`). -/
def insertDescStable (x : ScoredEntry) : List ScoredEntry → List ScoredEntry
  | [] => [x]
  | y :: ys => if y.rel ≤ x.rel then x :: y :: ys else y :: insertDescStable x ys

/-- Stable descending sort on `relevance_score`. -/
def sortByRelDesc : List ScoredEntry → List ScoredEntry
  | [] => []
  | x :: xs => insertDescStable x (sortByRelDesc xs)

/-- The scoring and filtering core of the `/search/hybrid` route: for each
candidate paper combine `0.4 * keyword_score + 0.6 * semantic_score`,
keep the paper when `combined > 0.01 or kw > 0`, report the three scores
rounded to 4 decimal places, and sort by relevance descending.  The
semantic scores arrive as the `paper_id → best similarity` mapping
produced by the (out-of-scope) embedding backend. -/
def hybrid_search_papers (papers : List PaperDoc) (queryTokens : List (List Char))
    (semScores : List (Int × ℚ)) : List ScoredEntry :=
  sortByRelDesc (papers.filterMap (fun p =>
    if KEYWORD_WEIGHT * keyword_score queryTokens p.title p.authors p.abstract
        + SEMANTIC_WEIGHT * semLookup semScores p.pid > 0.01
      ∨ keyword_score queryTokens p.title p.authors p.abstract > 0 then
      some ⟨p.pid,
        pyRound4 (KEYWORD_WEIGHT * keyword_score queryTokens p.title p.authors p.abstract
          + SEMANTIC_WEIGHT * semLookup semScores p.pid),
        pyRound4 (keyword_score queryTokens p.title p.authors p.abstract),
        pyRound4 (semLookup semScores p.pid)⟩
    else none))

theorem mem_insertDescStable {x e : ScoredEntry} :
    ∀ {l : List ScoredEntry}, e ∈ insertDescStable x l ↔ e = x ∨ e ∈ l
  | [] => by simp [insertDescStable]
  | y :: ys => by
    unfold insertDescStable
    split
    · simp
    · rw [List.mem_cons, List.mem_cons, mem_insertDescStable]
      tauto

theorem mem_sortByRelDesc {e : ScoredEntry} :
    ∀ {l : List ScoredEntry}, e ∈ sortByRelDesc l ↔ e ∈ l
  | [] => by simp [sortByRelDesc]
  | x :: xs => by
    unfold sortByRelDesc
    rw [mem_insertDescStable, List.mem_cons, mem_sortByRelDesc]

theorem hybrid_mem_inv {papers : List PaperDoc} {qts : List (List Char)}
    {sems : List (Int × ℚ)} {e : ScoredEntry}
    (h : e ∈ hybrid_search_papers papers qts sems) :
    ∃ p ∈ papers, e.pid = p.pid ∧
      e.rel = pyRound4 (KEYWORD_WEIGHT * keyword_score qts p.title p.authors p.abstract
        + SEMANTIC_WEIGHT * semLookup sems p.pid) ∧
      e.kw = pyRound4 (keyword_score qts p.title p.authors p.abstract) ∧
      e.sem = pyRound4 (semLookup sems p.pid) ∧
      (KEYWORD_WEIGHT * keyword_score qts p.title p.authors p.abstract
        + SEMANTIC_WEIGHT * semLookup sems p.pid > 0.01 ∨
       keyword_score qts p.title p.authors p.abstract > 0) := by
  unfold hybrid_search_papers at h
  rw [mem_sortByRelDesc] at h
  obtain ⟨p, hp, hfp⟩ := List.mem_filterMap.mp h
  split at hfp
  · next hcond =>
    obtain rfl := (Option.some.injEq _ _).mp hfp
    exact ⟨p, hp, rfl, rfl, rfl, rfl, hcond⟩
  · exact absurd hfp (by simp)

theorem mem_hybrid_of_cond {papers : List PaperDoc} {qts : List (List Char)}
    {sems : List (Int × ℚ)} {p : PaperDoc} (hp : p ∈ papers)
    (hcond : KEYWORD_WEIGHT * keyword_score qts p.title p.authors p.abstract
        + SEMANTIC_WEIGHT * semLookup sems p.pid > 0.01 ∨
      keyword_score qts p.title p.authors p.abstract > 0) :
    (⟨p.pid,
      pyRound4 (KEYWORD_WEIGHT * keyword_score qts p.title p.authors p.abstract
        + SEMANTIC_WEIGHT * semLookup sems p.pid),
      pyRound4 (keyword_score qts p.title p.authors p.abstract),
      pyRound4 (semLookup sems p.pid)⟩ : ScoredEntry) ∈
        hybrid_search_papers papers qts sems := by
  unfold hybrid_search_papers
  rw [mem_sortByRelDesc]
  refine List.mem_filterMap.mpr ⟨p, hp, ?_⟩
  show (if KEYWORD_WEIGHT * keyword_score qts p.title p.authors p.abstract
        + SEMANTIC_WEIGHT * semLookup sems p.pid > 0.01
      ∨ keyword_score qts p.title p.authors p.abstract > 0 then
      some (⟨p.pid,
        pyRound4 (KEYWORD_WEIGHT * keyword_score qts p.title p.authors p.abstract
          + SEMANTIC_WEIGHT * semLookup sems p.pid),
        pyRound4 (keyword_score qts p.title p.authors p.abstract),
        pyRound4 (semLookup sems p.pid)⟩ : ScoredEntry)
    else none) = some _
  rw [if_pos hcond]

/-! ### Claim C7: the hybrid inclusion rule -/

theorem pyRound4_one_fifteenth : pyRound4 (1/15 : ℚ) = 667/10000 := by
  unfold pyRound4
  rw [show ((1 : ℚ)/15 * 10000) = 2000/3 by norm_num]
  rw [show (⌊(2000 : ℚ)/3⌋ : Int) = 666 from by norm_num]
  rw [if_pos (by norm_num)]
  norm_num

theorem pyRound4_one_sixth : pyRound4 (1/6 : ℚ) = 1667/10000 := by
  unfold pyRound4
  rw [show ((1 : ℚ)/6 * 10000) = 5000/3 by norm_num]
  rw [show (⌊(5000 : ℚ)/3⌋ : Int) = 1666 from by norm_num]
  rw [if_pos (by norm_num)]
  norm_num

theorem pyRound4_zero : pyRound4 (0 : ℚ) = 0 := by
  unfold pyRound4
  rw [show ((0 : ℚ) * 10000) = 0 by norm_num]
  rw [show (⌊(0 : ℚ)⌋ : Int) = 0 from by norm_num]
  rw [if_neg (by norm_num), if_pos (by norm_num)]
  norm_num

theorem keyword_score_alpha :
    keyword_score (tokenize "alpha".toList) [] [] "alpha".toList = 1/6 := by
  have h1 : tokenize "alpha".toList = ["alpha".toList] := by decide
  have h2 : tokenize ([] : List Char) = [] := by decide
  unfold keyword_score
  rw [h1, h2]
  rw [if_neg (by decide)]
  rw [if_pos (by norm_num)]
  rw [List.foldl_cons, List.foldl_nil]
  rw [if_neg (by decide), if_neg (by decide), if_pos (by decide)]
  rw [min_eq_left (by norm_num)]
  norm_num

/-- C7 counterexample: the reported `relevance_score` field is rounded to
4 decimal places, so it is not in general equal to
`0.4 * keyword_score + 0.6 * semantic_score`: for a document whose only
lexical hit gives keyword score `1/6` and semantic score 0, the combined
score is `1/15 ≈ 0.0667` but the reported relevance is exactly
`667/10000`, which differs both from `0.4` times the reported (rounded)
keyword score and from `0.4 * (1/6)`. -/
theorem hybrid_relevance_rounding_cex :
    ∃ e ∈ hybrid_search_papers [⟨1, [], [], "alpha".toList⟩]
        (tokenize "alpha".toList) [],
      e.rel ≠ KEYWORD_WEIGHT * e.kw + SEMANTIC_WEIGHT * e.sem ∧
      e.rel ≠ KEYWORD_WEIGHT * (1/6 : ℚ) + SEMANTIC_WEIGHT * 0 := by
  have hsem : semLookup [] (1 : Int) = 0 := rfl
  have hcond : KEYWORD_WEIGHT *
        keyword_score (tokenize "alpha".toList) [] [] "alpha".toList
      + SEMANTIC_WEIGHT * semLookup [] (1 : Int) > 0.01 ∨
      keyword_score (tokenize "alpha".toList) [] [] "alpha".toList > 0 := by
    left
    rw [keyword_score_alpha, hsem]
    norm_num [KEYWORD_WEIGHT, SEMANTIC_WEIGHT]
  have hmem := @mem_hybrid_of_cond [⟨1, [], [], "alpha".toList⟩]
    (tokenize "alpha".toList) [] ⟨1, [], [], "alpha".toList⟩
    (List.mem_singleton.mpr rfl) hcond
  refine ⟨_, hmem, ?_, ?_⟩
  · show pyRound4 (KEYWORD_WEIGHT *
        keyword_score (tokenize "alpha".toList) [] [] "alpha".toList
        + SEMANTIC_WEIGHT * semLookup [] (1 : Int)) ≠
      KEYWORD_WEIGHT * pyRound4 (keyword_score (tokenize "alpha".toList) [] []
        "alpha".toList) + SEMANTIC_WEIGHT * pyRound4 (semLookup [] (1 : Int))
    rw [keyword_score_alpha, hsem]
    rw [show KEYWORD_WEIGHT * (1/6 : ℚ) + SEMANTIC_WEIGHT * 0 = 1/15 by
      norm_num [KEYWORD_WEIGHT, SEMANTIC_WEIGHT]]
    rw [pyRound4_one_fifteenth, pyRound4_one_sixth, pyRound4_zero]
    norm_num [KEYWORD_WEIGHT, SEMANTIC_WEIGHT]
  · show pyRound4 (KEYWORD_WEIGHT *
        keyword_score (tokenize "alpha".toList) [] [] "alpha".toList
        + SEMANTIC_WEIGHT * semLookup [] (1 : Int)) ≠
      KEYWORD_WEIGHT * (1/6 : ℚ) + SEMANTIC_WEIGHT * 0
    rw [keyword_score_alpha, hsem]
    rw [show KEYWORD_WEIGHT * (1/6 : ℚ) + SEMANTIC_WEIGHT * 0 = 1/15 by
      norm_num [KEYWORD_WEIGHT, SEMANTIC_WEIGHT]]
    rw [pyRound4_one_fifteenth]
    norm_num

/-- C7 amended: assuming the candidate documents have pairwise distinct
ids, a document appears in the hybrid result if and only if its exact
combined score `0.4 * keyword_score + 0.6 * semantic_score` exceeds 0.01
or its keyword score is positive (so a document with keyword score 0.05
and semantic score 0 is included, one with keyword score 0 and semantic
score 0.01 is excluded); each returned row reports the combined,
keyword and semantic scores rounded to 4 decimal places — the reported
`relevance_score` is the rounded value of `0.4 * kw + 0.6 * sem`, not
that exact combination itself. -/
theorem hybrid_inclusion (papers : List PaperDoc) (qts : List (List Char))
    (sems : List (Int × ℚ)) (hnd : (papers.map PaperDoc.pid).Nodup) :
    (∀ e ∈ hybrid_search_papers papers qts sems, ∃ p ∈ papers, e.pid = p.pid ∧
      e.rel = pyRound4 (KEYWORD_WEIGHT * keyword_score qts p.title p.authors p.abstract
        + SEMANTIC_WEIGHT * semLookup sems p.pid) ∧
      e.kw = pyRound4 (keyword_score qts p.title p.authors p.abstract) ∧
      e.sem = pyRound4 (semLookup sems p.pid)) ∧
    (∀ p ∈ papers,
      ((∃ e ∈ hybrid_search_papers papers qts sems, e.pid = p.pid) ↔
        (KEYWORD_WEIGHT * keyword_score qts p.title p.authors p.abstract
          + SEMANTIC_WEIGHT * semLookup sems p.pid > 0.01 ∨
         keyword_score qts p.title p.authors p.abstract > 0))) := by
  refine ⟨?_, ?_⟩
  · intro e he
    obtain ⟨p, hp, hpid, h1, h2, h3, _⟩ := hybrid_mem_inv he
    exact ⟨p, hp, hpid, h1, h2, h3⟩
  · intro p hp
    constructor
    · rintro ⟨e, he, hpid⟩
      obtain ⟨p2, hp2, hpid2, _, _, _, hcond⟩ := hybrid_mem_inv he
      have hpp : p2 = p := List.inj_on_of_nodup_map hnd hp2 hp
        (by rw [← hpid2]; exact hpid)
      rwa [hpp] at hcond
    · intro hcond
      exact ⟨_, mem_hybrid_of_cond hp hcond, rfl⟩

/-- Witness for the amended C7 at one concrete paper with a lexical hit. -/
theorem hybrid_inclusion_witness :
    (∀ e ∈ hybrid_search_papers [⟨1, "alpha".toList, [], []⟩]
        (tokenize "alpha".toList) [],
      ∃ p ∈ [(⟨1, "alpha".toList, [], []⟩ : PaperDoc)], e.pid = p.pid ∧
      e.rel = pyRound4 (KEYWORD_WEIGHT *
          keyword_score (tokenize "alpha".toList) p.title p.authors p.abstract
        + SEMANTIC_WEIGHT * semLookup [] p.pid) ∧
      e.kw = pyRound4 (keyword_score (tokenize "alpha".toList)
        p.title p.authors p.abstract) ∧
      e.sem = pyRound4 (semLookup [] p.pid)) ∧
    (∀ p ∈ [(⟨1, "alpha".toList, [], []⟩ : PaperDoc)],
      ((∃ e ∈ hybrid_search_papers [⟨1, "alpha".toList, [], []⟩]
          (tokenize "alpha".toList) [], e.pid = p.pid) ↔
        (KEYWORD_WEIGHT *
            keyword_score (tokenize "alpha".toList) p.title p.authors p.abstract
          + SEMANTIC_WEIGHT * semLookup [] p.pid > 0.01 ∨
         keyword_score (tokenize "alpha".toList) p.title p.authors p.abstract > 0))) :=
  hybrid_inclusion [⟨1, "alpha".toList, [], []⟩] (tokenize "alpha".toList) []
    (by decide)
